import Mathlib

/-!
Verification of the `word_enumerator` program (src/word_enumerator.py).

The Python source is shallowly embedded below:
* `build_charset` models `build_charset` (character-class concatenation and
  `dict.fromkeys`-style first-occurrence deduplication);
* `total_combinations` models `total_combinations` (exact big-integer sum of
  `charset_len ** L` over `range(min_len, max_len + 1)`);
* `enumerate_all` models the generator `enumerate_all` (validation errors and
  the `itertools.product(charset, repeat=L)` enumeration, whose documented
  semantics is the prefix-extension loop embodied by `productRepeat`);
* `sample_random` models `sample_random`, with the `secrets.choice` draws
  abstracted as an arbitrary index oracle `randIdx` (reduced modulo the
  charset length so that any oracle selects an actual element);
* `gate` models the cap-checking block of `main` (lines 128-139).

Python integers are unbounded, so all numeric parameters are `Int`; Python
strings are `List Char`; a generator that can raise is `Except String`.
-/

/-- Python's `string.ascii_lowercase`. -/
def ascii_lowercase : List Char := "abcdefghijklmnopqrstuvwxyz".toList

/-- Python's `string.ascii_uppercase`. -/
def ascii_uppercase : List Char := "ABCDEFGHIJKLMNOPQRSTUVWXYZ".toList

/-- Python's `string.digits`. -/
def string_digits : List Char := "0123456789".toList

/-- The fixed conservative special-character set from `build_charset`. -/
def common_specials : List Char := "!@#$%^&*()-_=+[]\x7b\x7d;:,.<>/?".toList

/-- Helper for `dict_fromkeys`: scan left to right, keeping a character only
if it has not been seen before. -/
def dedupFirstAux (seen : List Char) : List Char → List Char
  | [] => []
  | c :: cs => if c ∈ seen then dedupFirstAux seen cs else c :: dedupFirstAux (c :: seen) cs

/-- Python's `"".join(dict.fromkeys(charset))`: remove duplicates while
preserving first-occurrence order. -/
def dict_fromkeys (l : List Char) : List Char := dedupFirstAux [] l

/-- Embedding of `build_charset` (src/word_enumerator.py lines 15-29). -/
def build_charset (use_lower use_upper use_digits use_special : Bool)
    (extra_special : List Char) : List Char :=
  let parts : List (List Char) :=
    (if use_lower then [ascii_lowercase] else []) ++
    (if use_upper then [ascii_uppercase] else []) ++
    (if use_digits then [string_digits] else []) ++
    (if use_special then [common_specials ++ extra_special] else [])
  dict_fromkeys parts.flatten

/-- Python's `range(a, b)` over unbounded integers. -/
def intRange (a b : Int) : List Int :=
  (List.range (b - a).toNat).map (fun (i : Nat) => a + (i : Int))

/-- Embedding of `total_combinations` (src/word_enumerator.py lines 32-42):
defensive zero for invalid inputs, otherwise the loop
`for L in range(min_len, max_len + 1): total += pow(charset_len, L)`. -/
def total_combinations (charset_len min_len max_len : Int) : Int :=
  if charset_len ≤ 0 ∨ min_len < 1 ∨ max_len < min_len then 0
  else (intRange min_len (max_len + 1)).foldl (fun total L => total + charset_len ^ L.toNat) 0

/-- The documented semantics of `itertools.product(charset, repeat=L)`:
start from the empty prefix and extend every prefix by every charset symbol,
so the rightmost position advances fastest. -/
def productRepeat (charset : List Char) : Nat → List (List Char)
  | 0 => [[]]
  | n + 1 => (productRepeat charset n).flatMap (fun w => charset.map (fun c => w ++ [c]))

/-- Embedding of the generator `enumerate_all` (src/word_enumerator.py
lines 45-54): the two eager validation checks, then for each `L` in
`range(min_len, max_len + 1)` every tuple of `itertools.product(charset,
repeat=L)`, joined into a word. -/
def enumerate_all (charset : List Char) (min_len max_len : Int) :
    Except String (List (List Char)) :=
  if charset.isEmpty then
    Except.error "Charset is empty. Enable at least one character class."
  else if min_len < 1 ∨ max_len < min_len then
    Except.error "Invalid length range."
  else
    Except.ok (((intRange min_len (max_len + 1)).map
      (fun L => productRepeat charset L.toNat)).flatten)

/-- Embedding of `sample_random` (src/word_enumerator.py lines 57-61).
The `secrets.choice(charset)` draws are abstracted by an oracle `randIdx`
giving, for word `i` and position `j`, an arbitrary index that is reduced
modulo the charset length; every possible behaviour of the secure random
source corresponds to some oracle. -/
def sample_random (randIdx : Nat → Nat → Nat) (charset : List Char)
    (length count : Int) : Except String (List (List Char)) :=
  if charset.isEmpty then
    Except.error "Charset is empty. Enable at least one character class."
  else
    Except.ok ((List.range count.toNat).map (fun i =>
      (List.range length.toNat).map (fun j =>
        charset.getD (randIdx i j % charset.length) 'a')))

/-- Outcome of the safety gate in `main`. -/
inductive GateOutcome
  | NothingToDo : GateOutcome
  | Refuse : Int → Int → GateOutcome
  | Proceed : GateOutcome
deriving DecidableEq

/-- Embedding of the cap-checking block of `main` (src/word_enumerator.py
lines 128-139): `if total == 0` report nothing to do, else
`if total > args.cap and not args.force` refuse (reporting total and cap),
else proceed to enumeration. -/
def gate (total cap : Int) (force : Bool) : GateOutcome :=
  if total = 0 then GateOutcome.NothingToDo
  else if total > cap ∧ force = false then GateOutcome.Refuse total cap
  else GateOutcome.Proceed

/-! ### Spec-side definitions

`dedupKeepFirstSpec` renders the spec's "removes duplicates keeping only the
first occurrence of each symbol in its first position" directly: keep the
head, delete its later duplicates, recurse. -/

/-- Specification-style first-occurrence deduplication: keep the first symbol
where it stands and drop all of its later occurrences. -/
def dedupKeepFirstSpec : List Char → List Char
  | [] => []
  | c :: cs => c :: dedupKeepFirstSpec (cs.filter (fun x => x ≠ c))
termination_by l => l.length
decreasing_by
  simp only [List.length_cons]
  exact Nat.lt_succ_of_le (List.length_filter_le _ _)

/-- The raw concatenation `build_charset` performs before deduplicating:
lowercase, then uppercase, then digits, then the fixed specials followed by
the caller-supplied extras. -/
def rawConcat (use_lower use_upper use_digits use_special : Bool)
    (extra_special : List Char) : List Char :=
  (if use_lower then ascii_lowercase else []) ++
  (if use_upper then ascii_uppercase else []) ++
  (if use_digits then string_digits else []) ++
  (if use_special then common_specials ++ extra_special else [])

/-! ### Helper lemmas -/

lemma foldl_add_eq (f : Int → Int) (l : List Int) (c : Int) :
    l.foldl (fun t x => t + f x) c = c + (l.map f).sum := by
  induction l generalizing c with
  | nil => simp
  | cons x xs ih => simp [List.foldl_cons, ih, add_assoc]

lemma intRange_toNat (a b : Int) :
    intRange a b = (List.range (b - a).toNat).map (fun (i : Nat) => a + (i : Int)) := rfl

lemma intRange_length (a b : Int) :
    (intRange a b).length = (b - a).toNat := by
  rw [intRange, List.length_map, List.length_range]

lemma list_sum_range_eq (g : Nat → Int) (m : Nat) :
    ((List.range m).map g).sum = ∑ i ∈ Finset.range m, g i := by
  induction m with
  | zero => simp
  | succ k ih => simp [List.range_succ, Finset.sum_range_succ, ih]

/-! ### C4: the safety gate -/

/-- C4: the safety gate produces exactly one of three distinct outcomes:
`NothingToDo` exactly when the total is zero, `Refuse total cap` (carrying
both values, with enumeration never started) exactly when the total is
nonzero, exceeds the cap and force is unset, and `Proceed` otherwise — in
particular a total equal to the cap with force unset proceeds. -/
theorem gate_three_outcomes (total cap : Int) (force : Bool) :
    (gate total cap force = GateOutcome.NothingToDo ↔ total = 0) ∧
    (gate total cap force = GateOutcome.Refuse total cap ↔
      total ≠ 0 ∧ cap < total ∧ force = false) ∧
    (gate total cap force = GateOutcome.Proceed ↔
      total ≠ 0 ∧ (total ≤ cap ∨ force = true)) ∧
    gate 0 50 false = GateOutcome.NothingToDo ∧
    gate 100 50 false = GateOutcome.Refuse 100 50 ∧
    gate 100 50 true = GateOutcome.Proceed ∧
    gate 50 50 false = GateOutcome.Proceed := by
  refine ⟨?_, ?_, ?_, by decide, by decide, by decide, by decide⟩ <;>
  · rcases eq_or_ne total 0 with h0 | h0 <;>
      by_cases hc : cap < total <;> cases force <;>
        simp [gate, h0, hc] <;> omega

/-- Closed-form check of C4 at a concrete input. -/
theorem gate_three_outcomes_witness :
    (gate 50 50 false = GateOutcome.NothingToDo ↔ (50 : Int) = 0) ∧
    (gate 50 50 false = GateOutcome.Refuse 50 50 ↔
      (50 : Int) ≠ 0 ∧ (50 : Int) < 50 ∧ false = false) ∧
    (gate 50 50 false = GateOutcome.Proceed ↔
      (50 : Int) ≠ 0 ∧ ((50 : Int) ≤ 50 ∨ false = true)) ∧
    gate 0 50 false = GateOutcome.NothingToDo ∧
    gate 100 50 false = GateOutcome.Refuse 100 50 ∧
    gate 100 50 true = GateOutcome.Proceed ∧
    gate 50 50 false = GateOutcome.Proceed :=
  gate_three_outcomes 50 50 false

/-! ### C10: extras are ignored when specials are disabled -/

/-- C10: with the special-characters flag disabled the `extra_special`
argument has no effect whatsoever on the built alphabet, and with every
class disabled the alphabet is empty no matter which extras are supplied. -/
theorem build_charset_ignores_extra_without_special (l u d : Bool)
    (e1 e2 : List Char) :
    build_charset l u d false e1 = build_charset l u d false e2 ∧
    build_charset false false false false e1 = [] := by
  constructor
  · simp [build_charset]
  · simp [build_charset, dict_fromkeys, dedupFirstAux]

/-- Closed-form check of C10 at a concrete input. -/
theorem build_charset_ignores_extra_without_special_witness :
    build_charset true false false false ['x'] =
      build_charset true false false false ['y', 'z'] ∧
    build_charset false false false false ['x'] = [] :=
  build_charset_ignores_extra_without_special true false false ['x'] ['y', 'z']

/-! ### C5: the enumerator rejects invalid inputs -/

/-- C5: with an empty alphabet, or `min_len < 1`, or `max_len < min_len`,
the enumerator fails with an error before producing any word (the result is
an error, never an `ok` list). -/
theorem enumerate_all_rejects_invalid (charset : List Char)
    (min_len max_len : Int)
    (h : charset = [] ∨ min_len < 1 ∨ max_len < min_len) :
    ∃ msg, enumerate_all charset min_len max_len = Except.error msg := by
  rcases h with h | h
  · exact ⟨"Charset is empty. Enable at least one character class.",
      by simp [enumerate_all, h]⟩
  · by_cases he : charset.isEmpty
    · exact ⟨"Charset is empty. Enable at least one character class.",
        by simp [enumerate_all, he]⟩
    · exact ⟨"Invalid length range.", by simp [enumerate_all, he, h]⟩

/-- Closed-form check of C5 at a concrete input. -/
theorem enumerate_all_rejects_invalid_witness :
    ∃ msg, enumerate_all ['a', 'b'] 0 2 = Except.error msg :=
  enumerate_all_rejects_invalid ['a', 'b'] 0 2 (Or.inr (Or.inl (by decide)))

/-! ### C6: the counter is total and zero exactly on invalid input -/

lemma sum_pow_pos (n : Int) (hn : 1 ≤ n) (l : List Int) :
    0 ≤ (l.map (fun L => n ^ L.toNat)).sum := by
  induction l with
  | nil => simp
  | cons x xs ih =>
    simp only [List.map_cons, List.sum_cons]
    have : (0 : Int) < n ^ x.toNat := pow_pos (by omega) _
    omega

/-- C6: `total_combinations` (a total function, never raising) returns 0 if
and only if the alphabet size is nonpositive, `min_len < 1`, or
`max_len < min_len`; equivalently it is strictly positive exactly on valid
inputs. -/
theorem total_combinations_zero_iff (n a b : Int) :
    (total_combinations n a b = 0 ↔ n ≤ 0 ∨ a < 1 ∨ b < a) ∧
    (0 < total_combinations n a b ↔ 1 ≤ n ∧ 1 ≤ a ∧ a ≤ b) := by
  by_cases h : n ≤ 0 ∨ a < 1 ∨ b < a
  · constructor
    · simp [total_combinations, h]
    · simp [total_combinations, h]
      omega
  · have hn : 1 ≤ n := by omega
    have hab : a ≤ b := by omega
    have hpos : 0 < total_combinations n a b := by
      unfold total_combinations
      rw [if_neg h, foldl_add_eq, zero_add]
      have hlen : (intRange a (b + 1)).length = (b + 1 - a).toNat := intRange_length a (b + 1)
      have hne : intRange a (b + 1) ≠ [] := by
        intro hnil
        rw [hnil] at hlen
        simp at hlen
        omega
      rcases List.exists_cons_of_ne_nil hne with ⟨x, xs, hx⟩
      rw [hx]
      simp only [List.map_cons, List.sum_cons]
      have h1 : (0 : Int) < n ^ x.toNat := pow_pos (by omega) _
      have h2 := sum_pow_pos n hn xs
      omega
    constructor
    · constructor
      · intro h0; omega
      · intro hbad; exact absurd hbad h
    · constructor
      · intro _; exact ⟨hn, by omega, hab⟩
      · intro _; exact hpos

/-- Closed-form check of C6 at a concrete input. -/
theorem total_combinations_zero_iff_witness :
    (total_combinations 2 1 3 = 0 ↔ (2 : Int) ≤ 0 ∨ (1 : Int) < 1 ∨ (3 : Int) < 1) ∧
    (0 < total_combinations 2 1 3 ↔
      (1 : Int) ≤ 2 ∧ (1 : Int) ≤ 1 ∧ (1 : Int) ≤ 3) :=
  total_combinations_zero_iff 2 1 3

/-! ### C7: alphabet construction and first-occurrence deduplication -/

lemma dedupKeepFirstSpec_nil : dedupKeepFirstSpec [] = [] := by
  rw [dedupKeepFirstSpec]

lemma dedupKeepFirstSpec_cons (c : Char) (cs : List Char) :
    dedupKeepFirstSpec (c :: cs) =
      c :: dedupKeepFirstSpec (cs.filter (fun x => x ≠ c)) := by
  rw [dedupKeepFirstSpec]

lemma dedupFirstAux_eq (l : List Char) : ∀ seen : List Char,
    dedupFirstAux seen l = dedupKeepFirstSpec (l.filter (fun x => x ∉ seen)) := by
  induction l with
  | nil => intro seen; simp [dedupFirstAux, dedupKeepFirstSpec_nil]
  | cons c cs ih =>
    intro seen
    by_cases hc : c ∈ seen
    · rw [dedupFirstAux, if_pos hc, ih seen]
      have : (c :: cs).filter (fun x => x ∉ seen) = cs.filter (fun x => x ∉ seen) := by
        rw [List.filter_cons]
        simp [hc]
      rw [this]
    · rw [dedupFirstAux, if_neg hc, ih (c :: seen)]
      have h1 : (c :: cs).filter (fun x => x ∉ seen) =
          c :: cs.filter (fun x => x ∉ seen) := by
        rw [List.filter_cons]
        simp [hc]
      rw [h1, dedupKeepFirstSpec_cons]
      congr 1
      rw [List.filter_filter]
      refine congrArg dedupKeepFirstSpec (List.filter_congr ?_)
      intro x _
      by_cases hx1 : x ∈ seen <;> by_cases hx2 : x = c <;>
        simp [hx1, hx2, List.mem_cons]

lemma dict_fromkeys_eq_spec (l : List Char) :
    dict_fromkeys l = dedupKeepFirstSpec l := by
  rw [dict_fromkeys, dedupFirstAux_eq l []]
  congr 1
  apply List.filter_eq_self.mpr
  intro x _
  simp

lemma mem_dedupKeepFirstSpec (x : Char) : ∀ l : List Char,
    x ∈ dedupKeepFirstSpec l ↔ x ∈ l := by
  intro l
  induction l using dedupKeepFirstSpec.induct with
  | case1 => simp [dedupKeepFirstSpec_nil]
  | case2 c cs ih =>
    rw [dedupKeepFirstSpec_cons]
    simp only [List.mem_cons, ih, List.mem_filter]
    by_cases hx : x = c <;> simp [hx]

lemma dedupKeepFirstSpec_nodup : ∀ l : List Char, (dedupKeepFirstSpec l).Nodup := by
  intro l
  induction l using dedupKeepFirstSpec.induct with
  | case1 => simp [dedupKeepFirstSpec_nil]
  | case2 c cs ih =>
    rw [dedupKeepFirstSpec_cons]
    refine List.Nodup.cons ?_ ih
    intro hc
    rw [mem_dedupKeepFirstSpec, List.mem_filter] at hc
    simp at hc

lemma dedupKeepFirstSpec_sublist : ∀ l : List Char,
    (dedupKeepFirstSpec l).Sublist l := by
  intro l
  induction l using dedupKeepFirstSpec.induct with
  | case1 => simp [dedupKeepFirstSpec_nil]
  | case2 c cs ih =>
    rw [dedupKeepFirstSpec_cons]
    exact List.Sublist.cons₂ c (ih.trans (List.filter_sublist cs))

lemma build_charset_eq_raw (l u d s : Bool) (extra : List Char) :
    build_charset l u d s extra = dict_fromkeys (rawConcat l u d s extra) := by
  cases l <;> cases u <;> cases d <;> cases s <;>
    simp [build_charset, rawConcat]

/-- C7: `build_charset` concatenates, in the fixed order, lowercase,
uppercase, digits, then (when specials are enabled) the fixed special set
followed by `extra_special`, and deduplicates keeping only the first
occurrence of each symbol in place (the head of every duplicate group
survives where it first stands): the result equals the head-preserving
deduplication `dedupKeepFirstSpec` of the raw concatenation, has no
duplicate symbol, has exactly the raw concatenation's symbols (each
exactly once), is a sublist of the raw concatenation, and a character in
both the fixed special set and `extra_special` appears once, at its first
position (concretely `'!'` stays at the front of the specials block). -/
theorem build_charset_dedup_first (l u d s : Bool) (extra : List Char) :
    build_charset l u d s extra = dedupKeepFirstSpec (rawConcat l u d s extra) ∧
    (build_charset l u d s extra).Nodup ∧
    (∀ c, c ∈ build_charset l u d s extra ↔ c ∈ rawConcat l u d s extra) ∧
    (build_charset l u d s extra).Sublist (rawConcat l u d s extra) ∧
    (∀ c ∈ rawConcat l u d s extra, (build_charset l u d s extra).count c = 1) ∧
    build_charset false false false true ['!', 'Q'] = common_specials ++ ['Q'] := by
  have heq : build_charset l u d s extra =
      dedupKeepFirstSpec (rawConcat l u d s extra) := by
    rw [build_charset_eq_raw, dict_fromkeys_eq_spec]
  have hnodup : (build_charset l u d s extra).Nodup := by
    rw [heq]; exact dedupKeepFirstSpec_nodup _
  have hmem : ∀ c, c ∈ build_charset l u d s extra ↔ c ∈ rawConcat l u d s extra := by
    intro c; rw [heq]; exact mem_dedupKeepFirstSpec c _
  refine ⟨heq, hnodup, hmem, ?_, ?_, by decide⟩
  · rw [heq]; exact dedupKeepFirstSpec_sublist _
  · intro c hc
    exact List.count_eq_one_of_mem hnodup ((hmem c).mpr hc)

/-- Closed-form check of C7 at a concrete input. -/
theorem build_charset_dedup_first_witness :
    build_charset true false true false ['x'] =
      dedupKeepFirstSpec (rawConcat true false true false ['x']) ∧
    (build_charset true false true false ['x']).Nodup ∧
    (∀ c, c ∈ build_charset true false true false ['x'] ↔
      c ∈ rawConcat true false true false ['x']) ∧
    (build_charset true false true false ['x']).Sublist
      (rawConcat true false true false ['x']) ∧
    (∀ c ∈ rawConcat true false true false ['x'],
      (build_charset true false true false ['x']).count c = 1) ∧
    build_charset false false false true ['!', 'Q'] = common_specials ++ ['Q'] :=
  build_charset_dedup_first true false true false ['x']

/-! ### C8 and C9: the random sampler -/

lemma getD_mod_mem (charset : List Char) (hne : charset ≠ []) (k : Nat) :
    charset.getD (k % charset.length) 'a' ∈ charset := by
  have hlen : 0 < charset.length := List.length_pos.mpr hne
  have h : k % charset.length < charset.length := Nat.mod_lt _ hlen
  rw [List.getD_eq_getElem _ _ h]
  exact List.getElem_mem h

/-- C8: for every non-empty alphabet and every behaviour of the random
source, `sample_random` succeeds and returns exactly `count` words, each of
exactly `length` symbols all drawn from the alphabet; `count = 0` (indeed
any `count ≤ 0`) yields an empty result with no error, and over the
single-symbol alphabet `"a"` every output word is a run of `'a'`s. -/
theorem sample_random_spec (randIdx : Nat → Nat → Nat) (charset : List Char)
    (length count : Int) (hne : charset ≠ []) :
    ∃ ws, sample_random randIdx charset length count = Except.ok ws ∧
      ws.length = count.toNat ∧
      (∀ w ∈ ws, w.length = length.toNat ∧ ∀ c ∈ w, c ∈ charset) ∧
      (count ≤ 0 → ws = []) ∧
      (charset = ['a'] → ∀ w ∈ ws, w = List.replicate length.toNat 'a') := by
  have he : charset.isEmpty = false := List.isEmpty_eq_false.mpr hne
  have he' : ¬(charset.isEmpty = true) := by simp [he]
  refine ⟨_, by rw [sample_random, if_neg he'], ?_, ?_, ?_, ?_⟩
  · simp
  · intro w hw
    rcases List.mem_map.mp hw with ⟨i, _, rfl⟩
    refine ⟨by simp, ?_⟩
    intro c hc
    rcases List.mem_map.mp hc with ⟨j, _, rfl⟩
    exact getD_mod_mem charset hne _
  · intro hcount
    have : count.toNat = 0 := Int.toNat_of_nonpos hcount
    simp [this]
  · intro ha w hw
    subst ha
    rcases List.mem_map.mp hw with ⟨i, _, rfl⟩
    simp [Nat.mod_one, List.map_const']

/-- Closed-form check of C8 at a concrete input. -/
theorem sample_random_spec_witness :
    ∃ ws, sample_random (fun _ _ => 1) ['a', 'b'] 2 3 = Except.ok ws ∧
      ws.length = (3 : Int).toNat ∧
      (∀ w ∈ ws, w.length = (2 : Int).toNat ∧ ∀ c ∈ w, c ∈ ['a', 'b']) ∧
      ((3 : Int) ≤ 0 → ws = []) ∧
      (['a', 'b'] = ['a'] → ∀ w ∈ ws, w = List.replicate (2 : Int).toNat 'a') :=
  sample_random_spec (fun _ _ => 1) ['a', 'b'] 2 3 (by decide)

/-- C9 (implicit): `sample_random` fails exactly when the alphabet is empty;
it validates neither `length` nor `count`, so over a non-empty alphabet a
nonpositive `length` yields `count` empty words and a nonpositive `count`
yields an empty list, in both cases without error. -/
theorem sample_random_error_iff (randIdx : Nat → Nat → Nat) (charset : List Char)
    (length count : Int) :
    ((∃ msg, sample_random randIdx charset length count = Except.error msg) ↔
      charset = []) ∧
    (charset ≠ [] → length ≤ 0 →
      sample_random randIdx charset length count =
        Except.ok (List.replicate count.toNat [])) ∧
    (charset ≠ [] → count ≤ 0 →
      sample_random randIdx charset length count = Except.ok []) := by
  refine ⟨⟨?_, ?_⟩, ?_, ?_⟩
  · intro ⟨msg, hmsg⟩
    by_cases he : charset.isEmpty
    · exact List.isEmpty_iff.mp he
    · rw [sample_random] at hmsg
      simp [he] at hmsg
  · intro h
    refine ⟨"Charset is empty. Enable at least one character class.", ?_⟩
    rw [sample_random]
    simp [h]
  · intro hne hlen
    have he : charset.isEmpty = false := List.isEmpty_eq_false.mpr hne
    have h0 : length.toNat = 0 := Int.toNat_of_nonpos hlen
    rw [sample_random, he]
    simp [h0, List.map_const']
  · intro hne hcount
    have he : charset.isEmpty = false := List.isEmpty_eq_false.mpr hne
    have h0 : count.toNat = 0 := Int.toNat_of_nonpos hcount
    rw [sample_random, he]
    simp [h0]

/-- Closed-form check of C9 at a concrete input. -/
theorem sample_random_error_iff_witness :
    ((∃ msg, sample_random (fun _ _ => 0) ['a'] (-1) 2 = Except.error msg) ↔
      (['a'] : List Char) = []) ∧
    ((['a'] : List Char) ≠ [] → (-1 : Int) ≤ 0 →
      sample_random (fun _ _ => 0) ['a'] (-1) 2 =
        Except.ok (List.replicate (2 : Int).toNat [])) ∧
    ((['a'] : List Char) ≠ [] → (2 : Int) ≤ 0 →
      sample_random (fun _ _ => 0) ['a'] (-1) 2 = Except.ok []) :=
  sample_random_error_iff (fun _ _ => 0) ['a'] (-1) 2

/-! ### C2: exact big-integer combination counting -/

lemma total_combinations_valid (n a b : Int) (hn : 1 ≤ n) (h1 : 1 ≤ a) (h2 : a ≤ b) :
    total_combinations n a b =
      ((intRange a (b + 1)).map (fun L => n ^ L.toNat)).sum := by
  rw [total_combinations, if_neg (by omega), foldl_add_eq, zero_add]

lemma sum_intRange_pow (n a b : Int) :
    ((intRange a (b + 1)).map (fun L => n ^ L.toNat)).sum =
      ∑ L ∈ Finset.Icc a b, n ^ L.toNat := by
  rw [intRange_toNat, List.map_map, list_sum_range_eq,
    Int.Icc_eq_finset_map a b, Finset.sum_map]
  apply Finset.sum_congr rfl
  intro i _
  simp [Function.comp, Function.Embedding.trans_apply, Nat.castEmbedding_apply,
    addLeftEmbedding_apply]

/-- C2: on valid inputs (`1 ≤ n`, `1 ≤ a ≤ b`), `total_combinations n a b`
equals the exact mathematical sum of `n ^ L` over `L ∈ [a, b]`, computed in
the unbounded integers `ℤ` (so no overflow, wraparound, or truncation can
occur); the single-length case returns `n ^ L` itself; and concretely
`total_combinations 70 20 20 = 70 ^ 20`, a value strictly above `2 ^ 63`. -/
theorem total_combinations_exact (n a b : Int) (hn : 1 ≤ n) (h1 : 1 ≤ a)
    (h2 : a ≤ b) :
    total_combinations n a b = ∑ L ∈ Finset.Icc a b, n ^ L.toNat ∧
    (∀ L : Int, 1 ≤ L → total_combinations n L L = n ^ L.toNat) ∧
    total_combinations 70 20 20 = 70 ^ 20 ∧
    (2 : Int) ^ 63 < total_combinations 70 20 20 := by
  refine ⟨?_, ?_, ?_, ?_⟩
  · rw [total_combinations_valid n a b hn h1 h2, sum_intRange_pow n a b]
  · intro L hL
    rw [total_combinations_valid n L L hn hL le_rfl, sum_intRange_pow n L L,
      Finset.Icc_self, Finset.sum_singleton]
  · decide
  · decide

/-- Closed-form check of C2 at a concrete input. -/
theorem total_combinations_exact_witness :
    total_combinations 2 1 3 = ∑ L ∈ Finset.Icc (1 : Int) 3, 2 ^ L.toNat ∧
    (∀ L : Int, 1 ≤ L → total_combinations 2 L L = 2 ^ L.toNat) ∧
    total_combinations 70 20 20 = 70 ^ 20 ∧
    (2 : Int) ^ 63 < total_combinations 70 20 20 :=
  total_combinations_exact 2 1 3 (by decide) (by decide) (by decide)

/-! ### C1 and C3: the deterministic enumerator -/

lemma productRepeat_length_eq (charset : List Char) : ∀ L : Nat,
    (productRepeat charset L).length = charset.length ^ L := by
  intro L
  induction L with
  | zero => simp [productRepeat]
  | succ L ih =>
    rw [productRepeat, List.length_flatMap]
    have hmap : (productRepeat charset L).map
        (List.length ∘ fun w => charset.map (fun c => w ++ [c])) =
        (productRepeat charset L).map (fun _ => charset.length) := by
      apply List.map_congr_left
      intro w _
      simp [Function.comp]
    rw [hmap, List.map_const', List.sum_replicate, smul_eq_mul, ih, pow_succ]

lemma mem_productRepeat (charset : List Char) : ∀ (L : Nat) (w : List Char),
    w ∈ productRepeat charset L ↔ (w.length = L ∧ ∀ c ∈ w, c ∈ charset) := by
  intro L
  induction L with
  | zero =>
    intro w
    simp only [productRepeat, List.mem_singleton]
    constructor
    · rintro rfl; simp
    · rintro ⟨hlen, _⟩
      exact List.length_eq_zero.mp hlen
  | succ L ih =>
    intro w
    rw [productRepeat, List.mem_flatMap]
    constructor
    · rintro ⟨w', hw', hmem⟩
      rcases List.mem_map.mp hmem with ⟨c, hc, rfl⟩
      rcases (ih w').mp hw' with ⟨hlen, hchars⟩
      refine ⟨by simp [hlen], ?_⟩
      intro x hx
      rcases List.mem_append.mp hx with hx | hx
      · exact hchars x hx
      · rw [List.mem_singleton.mp hx]; exact hc
    · rintro ⟨hlen, hchars⟩
      rcases List.eq_nil_or_concat w with rfl | ⟨w', b, rfl⟩
      · simp at hlen
      · rw [List.concat_eq_append] at hlen hchars ⊢
        refine ⟨w', ?_, ?_⟩
        · apply (ih w').mpr
          refine ⟨?_, ?_⟩
          · rw [List.length_append] at hlen
            simp at hlen
            omega
          · intro c hc
            exact hchars c (List.mem_append.mpr (Or.inl hc))
        · apply List.mem_map.mpr
          exact ⟨b, hchars b (List.mem_append.mpr (Or.inr (List.mem_singleton.mpr rfl))),
            rfl⟩

lemma productRepeat_nodup (charset : List Char) (h : charset.Nodup) : ∀ L : Nat,
    (productRepeat charset L).Nodup := by
  intro L
  induction L with
  | zero => simp [productRepeat]
  | succ L ih =>
    rw [productRepeat, List.nodup_flatMap]
    constructor
    · intro w _
      refine List.Nodup.map ?_ h
      intro c1 c2 hcc
      have := List.append_cancel_left hcc
      simpa using this
    · refine ih.imp_of_mem ?_
      intro w1 w2 h1 h2 hne
      intro x hx1 hx2
      rcases List.mem_map.mp hx1 with ⟨c1, _, rfl⟩
      rcases List.mem_map.mp hx2 with ⟨c2, _, h12⟩
      have l1 := ((mem_productRepeat charset L w1).mp h1).1
      have l2 := ((mem_productRepeat charset L w2).mp h2).1
      have hw : w2 = w1 :=
        (List.append_inj h12 (by rw [l1, l2])).1
      exact hne hw.symm

lemma range_mul_flatMap (m n : Nat) :
    List.range (m * n) =
      (List.range m).flatMap (fun q => (List.range n).map (fun r => q * n + r)) := by
  induction m with
  | zero => simp
  | succ k ih =>
    rw [Nat.succ_mul, List.range_add, ih, List.range_succ, List.flatMap_append]
    congr 1
    rw [List.flatMap_cons, List.flatMap_nil, List.append_nil]

/-- Big-endian base-`n` digit list: the `L`-position odometer reading of
`k` (most significant position first, the last position cycling fastest as
`k` increases by one). -/
def digitsBE (n : Nat) : Nat → Nat → List Nat
  | 0, _ => []
  | L + 1, k => digitsBE n L (k / n) ++ [k % n]

/-- The `k`-th word of the odometer enumeration of length-`L` words over
the alphabet: the `L`-digit base-`|charset|` numeral of `k` read through
the alphabet's symbol ordering. -/
def odometerWord (charset : List Char) (L k : Nat) : List Char :=
  (digitsBE charset.length L k).map (fun d => charset.getD d 'a')

/-- Spec-side rendering of the ordering contract: all `|charset| ^ L` words
of length `L` listed for `k = 0, 1, …` as base-`|charset|` numerals — the
standard odometer/counter enumeration, i.e. lexicographic order by symbol
index with the last position advancing fastest. -/
def odometerWords (charset : List Char) (L : Nat) : List (List Char) :=
  (List.range (charset.length ^ L)).map (odometerWord charset L)

lemma map_eq_range_getD {α : Type} (g : Char → α) (d : Char) : ∀ l : List Char,
    l.map g = (List.range l.length).map (fun i => g (l.getD i d)) := by
  intro l
  induction l with
  | nil => simp
  | cons c cs ih =>
    simp only [List.map_cons, List.length_cons, List.range_succ_eq_map,
      List.map_map]
    congr 1

lemma productRepeat_eq_odometer (charset : List Char) (hne : charset ≠ []) :
    ∀ L : Nat, productRepeat charset L = odometerWords charset L := by
  have hn : 0 < charset.length := List.length_pos.mpr hne
  intro L
  induction L with
  | zero =>
    rw [odometerWords, pow_zero]
    rfl
  | succ L ih =>
    rw [productRepeat, ih]
    rw [show odometerWords charset (L + 1) =
        (List.range (charset.length ^ L * charset.length)).map
          (odometerWord charset (L + 1)) by rw [odometerWords, pow_succ]]
    rw [range_mul_flatMap, List.map_flatMap, odometerWords, List.flatMap_map]
    refine congrArg (List.flatMap (List.range (charset.length ^ L)))
      (funext fun q => ?_)
    rw [map_eq_range_getD (fun c => odometerWord charset L q ++ [c]) 'a' charset,
      List.map_map]
    apply List.map_congr_left
    intro r hr
    have hrn : r < charset.length := List.mem_range.mp hr
    have hdiv : (q * charset.length + r) / charset.length = q := by
      rw [mul_comm q charset.length, Nat.mul_add_div hn, Nat.div_eq_of_lt hrn,
        Nat.add_zero]
    have hmod : (q * charset.length + r) % charset.length = r := by
      rw [mul_comm q charset.length, Nat.mul_add_mod, Nat.mod_eq_of_lt hrn]
    simp only [Function.comp, odometerWord, digitsBE, hdiv, hmod,
      List.map_append, List.map_cons, List.map_nil]

/-- C1: for every duplicate-free non-empty alphabet and every range with
`1 ≤ min_len ≤ max_len`, the enumerator succeeds and yields, for each
length `L` from `min_len` to `max_len` in increasing order, the block
`odometerWords charset L`: exactly the `|charset| ^ L` distinct length-`L`
words over the alphabet (every such word occurs, nothing else does), with
the `k`-th word the `L`-digit base-`|charset|` numeral of `k` read through
the alphabet — the odometer order in which the last position advances
fastest, i.e. lexicographic order by the alphabet's symbol ordering;
concretely for alphabet `"ab"`, `min = max = 2` the yielded sequence is
exactly `["aa", "ab", "ba", "bb"]`. -/
theorem enumerate_all_odometer (charset : List Char) (min_len max_len : Int)
    (hnd : charset.Nodup) (hne : charset ≠ []) (h1 : 1 ≤ min_len)
    (h2 : min_len ≤ max_len) :
    (∃ ws, enumerate_all charset min_len max_len = Except.ok ws ∧
      ws = ((intRange min_len (max_len + 1)).map
        (fun L => odometerWords charset L.toNat)).flatten ∧
      ∀ L : Nat, (odometerWords charset L).length = charset.length ^ L ∧
        (odometerWords charset L).Nodup ∧
        ∀ w : List Char, w ∈ odometerWords charset L ↔
          (w.length = L ∧ ∀ c ∈ w, c ∈ charset)) ∧
    enumerate_all ['a', 'b'] 2 2 =
      Except.ok [['a', 'a'], ['a', 'b'], ['b', 'a'], ['b', 'b']] := by
  have he' : ¬(charset.isEmpty = true) := by
    simp [List.isEmpty_eq_false.mpr hne]
  constructor
  · refine ⟨_, by rw [enumerate_all, if_neg he', if_neg (by omega)], ?_, ?_⟩
    · congr 1
      apply List.map_congr_left
      intro L _
      exact productRepeat_eq_odometer charset hne L.toNat
    · intro L
      refine ⟨by simp [odometerWords], ?_, ?_⟩
      · rw [← productRepeat_eq_odometer charset hne L]
        exact productRepeat_nodup charset hnd L
      · intro w
        rw [← productRepeat_eq_odometer charset hne L]
        exact mem_productRepeat charset L w
  · rfl

/-- Closed-form check of C1 at a concrete input. -/
theorem enumerate_all_odometer_witness :
    (∃ ws, enumerate_all ['a', 'b'] 2 2 = Except.ok ws ∧
      ws = ((intRange 2 (2 + 1)).map
        (fun L => odometerWords ['a', 'b'] L.toNat)).flatten ∧
      ∀ L : Nat, (odometerWords ['a', 'b'] L).length =
          (['a', 'b'] : List Char).length ^ L ∧
        (odometerWords ['a', 'b'] L).Nodup ∧
        ∀ w : List Char, w ∈ odometerWords ['a', 'b'] L ↔
          (w.length = L ∧ ∀ c ∈ w, c ∈ (['a', 'b'] : List Char))) ∧
    enumerate_all ['a', 'b'] 2 2 =
      Except.ok [['a', 'a'], ['a', 'b'], ['b', 'a'], ['b', 'b']] :=
  enumerate_all_odometer ['a', 'b'] 2 2 (by decide) (by decide) (by decide)
    (by decide)

/-- C3: for every non-empty alphabet and every range with
`1 ≤ min_len ≤ max_len`, the number of words the enumerator yields equals
`total_combinations` applied to the alphabet size and the same range,
exactly; concretely alphabet `"ab"` with range `[1, 2]` yields exactly the
six words `a, b, aa, ab, ba, bb`, matching `total_combinations 2 1 2 = 6`. -/
theorem enumerate_count_eq_total (charset : List Char) (min_len max_len : Int)
    (hne : charset ≠ []) (h1 : 1 ≤ min_len) (h2 : min_len ≤ max_len) :
    (∃ ws, enumerate_all charset min_len max_len = Except.ok ws ∧
      (ws.length : Int) =
        total_combinations (charset.length : Int) min_len max_len) ∧
    enumerate_all ['a', 'b'] 1 2 =
      Except.ok [['a'], ['b'], ['a', 'a'], ['a', 'b'], ['b', 'a'], ['b', 'b']] ∧
    total_combinations 2 1 2 = 6 := by
  have he' : ¬(charset.isEmpty = true) := by
    simp [List.isEmpty_eq_false.mpr hne]
  have hn1 : (1 : Int) ≤ (charset.length : Int) := by
    have := List.length_pos.mpr hne
    omega
  refine ⟨⟨_, by rw [enumerate_all, if_neg he', if_neg (by omega)], ?_⟩,
    by rfl, by decide⟩
  rw [List.length_flatten, List.map_map,
    total_combinations_valid _ min_len max_len hn1 h1 h2, Nat.cast_list_sum,
    List.map_map]
  refine congrArg List.sum (List.map_congr_left ?_)
  intro L _
  simp [Function.comp, productRepeat_length_eq, Nat.cast_pow]

/-- Closed-form check of C3 at a concrete input. -/
theorem enumerate_count_eq_total_witness :
    (∃ ws, enumerate_all ['a', 'b'] 1 2 = Except.ok ws ∧
      (ws.length : Int) =
        total_combinations ((['a', 'b'] : List Char).length : Int) 1 2) ∧
    enumerate_all ['a', 'b'] 1 2 =
      Except.ok [['a'], ['b'], ['a', 'a'], ['a', 'b'], ['b', 'a'], ['b', 'b']] ∧
    total_combinations 2 1 2 = 6 :=
  enumerate_count_eq_total ['a', 'b'] 1 2 (by decide) (by decide) (by decide)
